import Mathlib

/-!
Shallow embedding of the envconfig-docs extraction pipeline (`main.go`):
the Declaration Collector (`collectDecls`), the Tag Extractor
(`collectConfigTypes`), the Aggregator (`collectConfigTypesFromPackages`)
and the markdown renderer (`writeMarkdown`), together with proofs of the
specified properties.
-/

namespace EnvconfigDocs

/-- Models `ast.Expr` in field-type position: either a simple named identifier
(`*ast.Ident`), or any other type expression (pointer, slice, map,
selector, ...), whose precise shape the extractor never inspects. -/
inductive FieldType where
  | ident (name : String) : FieldType
  | nonIdent : FieldType
deriving DecidableEq, Repr

/-- Models `*ast.Field`, one field declaration entry of a struct literal.
`names` models `Names` (a single entry may declare several identifiers);
`tag` models the field's struct tag after the external `reflect.StructTag`
parse of `Tag.Value` with the enclosing backticks stripped: `none` stands for
a `nil` tag or an empty tag value (both make the loop `continue`), and
`some attrs` for the parsed key/value attribute list, values unquoted;
`doc` models `Doc.Text()`, the field's doc-comment text (`""` when absent). -/
structure Field where
  names : List String
  fieldType : FieldType
  tag : Option (List (String × String))
  doc : String
deriving DecidableEq, Repr

/-- Models `reflect.StructTag.Lookup` on the parsed attribute list: the first
binding of the key wins, a missing key is not found. -/
def lookupTag : List (String × String) → String → Option String
  | [], _ => none
  | (k, v) :: rest, key => if k = key then some v else lookupTag rest key

/-- Models the `Type` of an `*ast.TypeSpec`: a structure literal
(`*ast.StructType`) with its ordered field list, or any non-struct
underlying type. -/
inductive TypeSpecType where
  | structLit (fields : List Field)
  | nonStruct
deriving DecidableEq, Repr

/-- Models `ast.Spec` inside a `GenDecl`: a `*ast.TypeSpec`, or any other
spec (import/value specs), which `collectDecls` skips. -/
inductive SpecNode where
  | typeSpec (name : String) (ty : TypeSpecType)
  | otherSpec
deriving DecidableEq, Repr

/-- Models `ast.Decl` at the top level of a file: a `*ast.GenDecl` with its
`TokPos` (used only for comment lookup) and its spec list, or any other
declaration, which `collectDecls` skips. -/
inductive DeclNode where
  | genDecl (tokPos : Nat) (specs : List SpecNode)
  | otherDecl
deriving DecidableEq, Repr

/-- Models `*ast.File`: its top-level declaration list. -/
structure FileNode where
  decls : List DeclNode
deriving DecidableEq, Repr

/-- Models the `decl` struct of main.go. The `GenDecl`'s `TokPos` stands in
for the `*ast.GenDecl` pointer, which is used only for
`comments.CommentsByPos(d.Decl.TokPos)`; `fields` is the struct's ordered
field list. -/
structure DeclEntry where
  tokPos : Nat
  fields : List Field
deriving DecidableEq, Repr

/-- Association-list model of a Go `map[string]V`: lookup of a key. -/
def lookup : List (String × α) → String → Option α
  | [], _ => none
  | (k, v) :: rest, key => if k = key then some v else lookup rest key

/-- Go map assignment `m[k] = v`: replaces the existing binding if present,
else adds the binding. -/
def upsert : List (String × α) → String → α → List (String × α)
  | [], key, v => [(key, v)]
  | (k, w) :: rest, key, v =>
      if k = key then (key, v) :: rest else (k, w) :: upsert rest key v

/-- One spec step of `collectDecls`: a `TypeSpec` whose type is a struct
literal is recorded (overwriting any earlier binding of the name), anything
else leaves the map unchanged. -/
def collectSpec (pos : Nat) (acc : List (String × DeclEntry)) :
    SpecNode → List (String × DeclEntry)
  | .typeSpec name (.structLit fields) => upsert acc name ⟨pos, fields⟩
  | .typeSpec _ .nonStruct => acc
  | .otherSpec => acc

/-- One declaration step of `collectDecls`: non-`GenDecl` declarations are
skipped, a `GenDecl`'s specs are processed in order. -/
def collectDecl (acc : List (String × DeclEntry)) :
    DeclNode → List (String × DeclEntry)
  | .genDecl pos specs => specs.foldl (collectSpec pos) acc
  | .otherDecl => acc

/-- `collectDecls` starting from an accumulated map. -/
def collectDeclsAux (acc : List (String × DeclEntry)) (files : List FileNode) :
    List (String × DeclEntry) :=
  files.foldl (fun a file => file.decls.foldl collectDecl a) acc

/-- Models `collectDecls`: walk the files' top-level declarations in order and
record every struct-literal type spec. -/
def collectDecls (files : List FileNode) : List (String × DeclEntry) :=
  collectDeclsAux [] files

/-- Models `configKey`. `Ty` models the Go field `Type` (a Lean keyword). -/
structure ConfigKey where
  Name : String
  Ty : String
  Required : Bool
  Default : String
  Comment : String
deriving DecidableEq, Repr

/-- Models `configType`; `Comments` holds the `Text()` of each comment group
returned by `comment.Maps.CommentsByPos` at the declaration's `TokPos`. -/
structure ConfigType where
  Keys : List ConfigKey
  Comments : List String
deriving DecidableEq, Repr

/-- Models `strings.ReplaceAll(s, "\n", "")`: with a one-character pattern
and an empty replacement this is exactly the removal of every newline
character. -/
def stripNewlines (s : String) : String :=
  String.mk (s.data.filter (fun c => c != '\n'))

/-- One iteration of the field loop of `collectConfigTypes`, for one field:
`none` models the `field.Type.(*ast.Ident)` type-assertion panic, `some none`
models `continue` (no tag, or no `envconfig` attribute), and `some (some k)`
is the configKey built for the field. -/
def fieldKey (f : Field) : Option (Option ConfigKey) :=
  match f.tag with
  | none => some none
  | some attrs =>
    match lookupTag attrs "envconfig" with
    | none => some none
    | some key =>
      match f.fieldType with
      | .nonIdent => none
      | .ident tyName =>
          some (some
            { Name := key
              Ty := tyName
              Required := decide (lookupTag attrs "required" = some "true")
              Default := (lookupTag attrs "default").getD ""
              Comment := stripNewlines f.doc })

/-- The field loop of `collectConfigTypes` over one declaration's fields, in
declaration order: the ordered key list, or `none` if the loop panics on an
`envconfig`-tagged field whose type is not a simple identifier. -/
def extractKeys : List Field → Option (List ConfigKey)
  | [] => some []
  | f :: rest =>
    match fieldKey f with
    | none => none
    | some none => extractKeys rest
    | some (some k) => (extractKeys rest).map (fun ks => k :: ks)

/-- The field carries the envconfig configuration tag: its tag is present and
`Lookup("envconfig")` succeeds. -/
def hasEnvTag (f : Field) : Bool :=
  match f.tag with
  | none => false
  | some attrs => (lookupTag attrs "envconfig").isSome

/-- The configKey produced for a field, when the field yields one. -/
def keyOfField (f : Field) : Option ConfigKey :=
  match fieldKey f with
  | some (some k) => some k
  | _ => none

/-- Models `collectConfigTypes`. `cm` models the external
`comment.Maps.CommentsByPos` index (position to the `Text()` of each
associated comment group). Go iterates the `decls` map in unspecified order;
the embedding iterates the association list in order, which computes the same
map whenever the keys are distinct (each iteration only writes its own name).
A type gets an entry on its first recognized field, so a declaration whose
key list comes out empty contributes no entry; a panic anywhere (an
`envconfig`-tagged field of non-identifier type) makes the whole result
`none`. -/
def collectConfigTypes (cm : Nat → List String) :
    List (String × DeclEntry) → Option (List (String × ConfigType))
  | [] => some []
  | (name, d) :: rest =>
    match extractKeys d.fields with
    | none => none
    | some ks =>
      match collectConfigTypes cm rest with
      | none => none
      | some m =>
          if ks.isEmpty then some m
          else some ((name, ⟨ks, cm d.tokPos⟩) :: m)

/-- Models `*packages.Package` as the core consumes it: the parsed files
(`Syntax`) and the comment index `comment.New(pkg.Fset, pkg.Syntax)` built
from them. -/
structure Package where
  files : List FileNode
  cm : Nat → List String

/-- Models `maps.Copy(dst, src)`: every binding of `src` is written into
`dst`, overwriting bindings of the same key. -/
def mapsCopy (dst src : List (String × α)) : List (String × α) :=
  src.foldl (fun d kv => upsert d kv.1 kv.2) dst

/-- The package loop of `collectConfigTypesFromPackages`, starting from an
accumulated map. -/
def collectFromPackagesAux (acc : List (String × ConfigType)) :
    List Package → Option (List (String × ConfigType))
  | [] => some acc
  | pkg :: rest =>
    match collectConfigTypes pkg.cm (collectDecls pkg.files) with
    | none => none
    | some cfg => collectFromPackagesAux (mapsCopy acc cfg) rest

/-- Models `collectConfigTypesFromPackages`: collect each package
independently, in input order, and merge with `maps.Copy` (later packages
overwrite earlier ones on name collision). -/
def collectConfigTypesFromPackages (pkgs : List Package) :
    Option (List (String × ConfigType)) :=
  collectFromPackagesAux [] pkgs

/-- Models the comment block of `writeMarkdown`: each comment group's
`Text()` is split on newlines and each line printed with a trailing
newline. -/
def renderComments (cs : List String) : String :=
  String.join (cs.map fun c =>
    String.join ((c.splitOn "\n").map fun line => line ++ "\n"))

/-- Models `fmt.Sprintf("%q", s)` for strings free of characters that `%q`
escapes; no claim depends on the escaping itself. -/
def goQuote (s : String) : String := "\"" ++ s ++ "\""

/-- The cells of one table row, as `writeMarkdown` appends them: Name, Type,
Required as literal `true`/`false`, Default double-quoted when non-empty and
empty otherwise, Comment. -/
def rowCells (k : ConfigKey) : List String :=
  [k.Name, k.Ty, if k.Required then "true" else "false",
   if k.Default = "" then "" else goQuote k.Default, k.Comment]

/-- The table header of `writeMarkdown`. -/
def headerCells : List String := ["Name", "Type", "Required", "Default", "Comment"]

/-- Pad a cell on the right with spaces to the column width. -/
def padRight (s : String) (w : Nat) : String :=
  s ++ String.mk (List.replicate (w - s.length) ' ')

/-- One rendered table row. -/
def renderRow (ws : List Nat) (cells : List String) : String :=
  "|" ++ String.join ((List.zip ws cells).map fun wc =>
    " " ++ padRight wc.2 wc.1 ++ " |") ++ "\n"

/-- The left-aligned markdown separator row. -/
def renderSep (ws : List Nat) : String :=
  "|" ++ String.join (ws.map fun w =>
    ":" ++ String.mk (List.replicate (w + 1) '-') ++ "|") ++ "\n"

/-- Models the external `tablewriter` markdown renderer as configured in
`writeMarkdown` (left alignment, auto-format off), as fixed by the repo's
golden test: every column is padded to its widest cell (header included) and
a `:---` separator row follows the header. -/
def renderTable (rows : List (List String)) : String :=
  let all := headerCells :: rows
  let ws := (List.range headerCells.length).map fun i =>
    (all.map fun r => (r.getD i "").length).foldl max 0
  renderRow ws headerCells ++ renderSep ws ++ String.join (rows.map (renderRow ws))

/-- One `## name` section of the markdown output: the level-2 heading, a
blank line, the type's comment groups, the table, and a final blank line
(`fmt.Fprintln`). -/
def renderSection (e : String × ConfigType) : String :=
  "## " ++ e.1 ++ "\n\n" ++ renderComments e.2.Comments
    ++ renderTable (e.2.Keys.map rowCells) ++ "\n"

/-- The comparator of `writeMarkdown`'s sort: `strings.Compare(a.Key, b.Key)`,
as the "not greater" relation a sort needs. `strings.Compare` is byte-wise on
UTF-8, which coincides with the code-point order of Lean strings. -/
def entryLE (a b : String × ConfigType) : Bool := decide (a.1 ≤ b.1)

/-- Models `slices.SortedFunc(entries(maps.All(configs)), strings.Compare on
keys)`: the entries sorted by key. -/
def sortedEntries (m : List (String × ConfigType)) : List (String × ConfigType) :=
  m.mergeSort entryLE

/-- Models `writeMarkdown` as the full string written to `w`: the
write-failure paths are sink failures, absent from the pure model. -/
def writeMarkdown (m : List (String × ConfigType)) : String :=
  String.join ((sortedEntries m).map renderSection)

example : lookupTag [("envconfig", "DATABASE_URL"), ("required", "true")] "required" = some "true" := by decide

/-! ### Association-list map lemmas -/

theorem lookup_upsert_self (m : List (String × α)) (k : String) (v : α) :
    lookup (upsert m k v) k = some v := by
  induction m with
  | nil => simp [upsert, lookup]
  | cons hd tl ih =>
    obtain ⟨k', v'⟩ := hd
    by_cases h : k' = k <;> simp [upsert, lookup, h, ih]

theorem lookup_upsert_ne (m : List (String × α)) (k k' : String) (v : α)
    (h : k' ≠ k) : lookup (upsert m k v) k' = lookup m k' := by
  induction m with
  | nil => simp [upsert, lookup, Ne.symm h]
  | cons hd tl ih =>
    obtain ⟨k0, v0⟩ := hd
    by_cases h0 : k0 = k
    · subst h0
      simp [upsert, lookup, Ne.symm h]
    · simp only [upsert, if_neg h0]
      by_cases h1 : k0 = k' <;> simp [lookup, h1, ih]

theorem lookup_isSome_iff_mem (m : List (String × α)) (k : String) :
    (lookup m k).isSome ↔ k ∈ m.map Prod.fst := by
  induction m with
  | nil => simp [lookup]
  | cons hd tl ih =>
    obtain ⟨k0, v0⟩ := hd
    by_cases h : k0 = k
    · subst h; simp [lookup]
    · simp [lookup, h, ih, Ne.symm h]

theorem lookup_eq_none_of_not_mem (m : List (String × α)) (k : String)
    (h : k ∉ m.map Prod.fst) : lookup m k = none := by
  have := (lookup_isSome_iff_mem m k).not.mpr h
  cases hl : lookup m k with
  | none => rfl
  | some v => exact absurd (by simp [hl]) this

theorem upsert_map_fst_of_mem (m : List (String × α)) (k : String) (v : α)
    (h : k ∈ m.map Prod.fst) : (upsert m k v).map Prod.fst = m.map Prod.fst := by
  induction m with
  | nil => simp at h
  | cons hd tl ih =>
    obtain ⟨k0, v0⟩ := hd
    by_cases h0 : k0 = k
    · subst h0; simp [upsert]
    · have h' : k ∈ tl.map Prod.fst := by
        rw [List.map_cons] at h
        rcases List.mem_cons.mp h with h1 | h1
        · exact absurd h1.symm h0
        · exact h1
      simp [upsert, h0, ih h']

theorem upsert_map_fst_of_not_mem (m : List (String × α)) (k : String) (v : α)
    (h : k ∉ m.map Prod.fst) :
    (upsert m k v).map Prod.fst = m.map Prod.fst ++ [k] := by
  induction m with
  | nil => simp [upsert]
  | cons hd tl ih =>
    obtain ⟨k0, v0⟩ := hd
    simp only [List.map_cons, List.mem_cons] at h
    push_neg at h
    simp [upsert, Ne.symm h.1, ih h.2]

theorem upsert_nodup_keys (m : List (String × α)) (k : String) (v : α)
    (h : (m.map Prod.fst).Nodup) : ((upsert m k v).map Prod.fst).Nodup := by
  by_cases hm : k ∈ m.map Prod.fst
  · rwa [upsert_map_fst_of_mem m k v hm]
  · rw [upsert_map_fst_of_not_mem m k v hm]
    refine List.Nodup.append h (List.nodup_singleton k) ?_
    intro a ha hb
    rw [List.mem_singleton] at hb
    subst hb
    exact hm ha

theorem lookup_mapsCopy (dst src : List (String × α))
    (hs : (src.map Prod.fst).Nodup) (k : String) :
    lookup (mapsCopy dst src) k = (lookup src k).orElse (fun _ => lookup dst k) := by
  induction src generalizing dst with
  | nil => simp [mapsCopy, lookup]
  | cons hd tl ih =>
    obtain ⟨k0, v0⟩ := hd
    simp only [List.map_cons, List.nodup_cons] at hs
    have step : mapsCopy dst ((k0, v0) :: tl) = mapsCopy (upsert dst k0 v0) tl := rfl
    rw [step, ih _ hs.2]
    by_cases h : k = k0
    · subst h
      have : lookup tl k = none :=
        lookup_eq_none_of_not_mem tl k hs.1
      simp [lookup, this, lookup_upsert_self]
    · simp [lookup, Ne.symm h, lookup_upsert_ne dst k0 k v0 h]

/-! ### Field-level extraction lemmas -/

theorem fieldKey_some_none_iff (f : Field) :
    fieldKey f = some none ↔ hasEnvTag f = false := by
  cases hf : f.tag with
  | none => simp [fieldKey, hasEnvTag, hf]
  | some attrs =>
    cases hk : lookupTag attrs "envconfig" with
    | none => simp [fieldKey, hasEnvTag, hf, hk]
    | some key =>
      cases ht : f.fieldType <;> simp [fieldKey, hasEnvTag, hf, hk, ht]

theorem fieldKey_some_some (f : Field) (k : ConfigKey)
    (h : fieldKey f = some (some k)) : hasEnvTag f = true := by
  cases hf : f.tag with
  | none => simp [fieldKey, hf] at h
  | some attrs =>
    cases hk : lookupTag attrs "envconfig" with
    | none => simp [fieldKey, hf, hk] at h
    | some key => simp [hasEnvTag, hf, hk]

theorem extractKeys_eq_filterMap : ∀ (fields : List Field) (ks : List ConfigKey),
    extractKeys fields = some ks → ks = fields.filterMap keyOfField
  | [], ks, h => by simpa [extractKeys] using h.symm
  | f :: rest, ks, h => by
    cases hf : fieldKey f with
    | none => simp [extractKeys, hf] at h
    | some o =>
      cases o with
      | none =>
        simp only [extractKeys, hf] at h
        rw [List.filterMap_cons_none (by simp [keyOfField, hf])]
        exact extractKeys_eq_filterMap rest ks h
      | some k =>
        simp only [extractKeys, hf] at h
        cases hrest : extractKeys rest with
        | none => rw [hrest] at h; simp at h
        | some ks' =>
          rw [hrest, Option.map_some'] at h
          obtain rfl := Option.some.inj h
          have hkf : keyOfField f = some k := by simp [keyOfField, hf]
          rw [List.filterMap_cons_some hkf]
          rw [← extractKeys_eq_filterMap rest ks' hrest]

theorem extractKeys_length : ∀ (fields : List Field) (ks : List ConfigKey),
    extractKeys fields = some ks → ks.length = fields.countP hasEnvTag
  | [], ks, h => by
    simp only [extractKeys, Option.some.injEq] at h
    simp [← h]
  | f :: rest, ks, h => by
    cases hf : fieldKey f with
    | none => simp [extractKeys, hf] at h
    | some o =>
      cases o with
      | none =>
        simp only [extractKeys, hf] at h
        have hfe : hasEnvTag f = false := (fieldKey_some_none_iff f).mp hf
        have hneg : ¬ (hasEnvTag f = true) := by simp [hfe]
        rw [List.countP_cons_of_neg _ _ hneg]
        exact extractKeys_length rest ks h
      | some k =>
        simp only [extractKeys, hf] at h
        cases hrest : extractKeys rest with
        | none => rw [hrest] at h; simp at h
        | some ks' =>
          rw [hrest, Option.map_some'] at h
          obtain rfl := Option.some.inj h
          have hpos : hasEnvTag f = true := fieldKey_some_some f k hf
          rw [List.countP_cons_of_pos _ _ hpos]
          simp [extractKeys_length rest ks' hrest]

theorem extractKeys_isSome (fields : List Field)
    (h : ∀ f ∈ fields, f.fieldType ≠ .nonIdent) : (extractKeys fields).isSome := by
  induction fields with
  | nil => simp [extractKeys]
  | cons f rest ih =>
    have hrest := ih (fun g hg => h g (List.mem_cons_of_mem f hg))
    have hf : fieldKey f ≠ none := by
      intro hcon
      cases hft : f.fieldType with
      | nonIdent => exact h f (List.mem_cons_self f rest) hft
      | ident n =>
        cases hft' : f.tag with
        | none => simp [fieldKey, hft'] at hcon
        | some attrs =>
          cases hk : lookupTag attrs "envconfig" with
          | none => simp [fieldKey, hft', hk] at hcon
          | some key => simp [fieldKey, hft', hk, hft] at hcon
    cases hfk : fieldKey f with
    | none => exact absurd hfk hf
    | some o =>
      cases o with
      | none => simpa [extractKeys, hfk] using hrest
      | some k =>
        simp only [extractKeys, hfk]
        cases hrest' : extractKeys rest with
        | none => rw [hrest'] at hrest; simp at hrest
        | some ks => simp

theorem collectDeclsAux_append (acc : List (String × DeclEntry))
    (fs gs : List FileNode) :
    collectDeclsAux acc (fs ++ gs) = collectDeclsAux (collectDeclsAux acc fs) gs := by
  simp [collectDeclsAux, List.foldl_append]

theorem foldl_collectSpec_nodup (pos : Nat) :
    ∀ (specs : List SpecNode) (acc : List (String × DeclEntry)),
      (acc.map Prod.fst).Nodup →
      ((specs.foldl (collectSpec pos) acc).map Prod.fst).Nodup
  | [], _, h => h
  | s :: rest, acc, h => by
    rw [List.foldl_cons]
    apply foldl_collectSpec_nodup pos rest
    cases s with
    | otherSpec => exact h
    | typeSpec nm ty =>
      cases ty with
      | nonStruct => exact h
      | structLit fields => exact upsert_nodup_keys _ _ _ h

theorem foldl_collectDecl_nodup :
    ∀ (ds : List DeclNode) (acc : List (String × DeclEntry)),
      (acc.map Prod.fst).Nodup → ((ds.foldl collectDecl acc).map Prod.fst).Nodup
  | [], _, h => h
  | d :: rest, acc, h => by
    rw [List.foldl_cons]
    apply foldl_collectDecl_nodup rest
    cases d with
    | otherDecl => exact h
    | genDecl pos specs => exact foldl_collectSpec_nodup pos specs acc h

theorem collectDeclsAux_nodup :
    ∀ (fs : List FileNode) (acc : List (String × DeclEntry)),
      (acc.map Prod.fst).Nodup → ((collectDeclsAux acc fs).map Prod.fst).Nodup
  | [], _, h => h
  | file :: rest, acc, h => by
    show ((collectDeclsAux (file.decls.foldl collectDecl acc) rest).map Prod.fst).Nodup
    exact collectDeclsAux_nodup rest _ (foldl_collectDecl_nodup file.decls acc h)

/-- The Declaration Collector always produces a map with distinct type
names. -/
theorem collectDecls_nodup_keys (files : List FileNode) :
    ((collectDecls files).map Prod.fst).Nodup :=
  collectDeclsAux_nodup files [] (by simp)

/-- Inversion of one step of `collectConfigTypes`. -/
theorem collect_cons_inv (cm : Nat → List String) (n : String) (d : DeclEntry)
    (rest : List (String × DeclEntry)) (m : List (String × ConfigType))
    (h : collectConfigTypes cm ((n, d) :: rest) = some m) :
    ∃ ks m', extractKeys d.fields = some ks ∧
      collectConfigTypes cm rest = some m' ∧
      ((ks.isEmpty = true ∧ m = m') ∨
       (ks.isEmpty = false ∧ m = (n, ⟨ks, cm d.tokPos⟩) :: m')) := by
  cases hks : extractKeys d.fields with
  | none => simp [collectConfigTypes, hks] at h
  | some ks =>
    cases hrest : collectConfigTypes cm rest with
    | none => simp [collectConfigTypes, hks, hrest] at h
    | some m' =>
      simp only [collectConfigTypes, hks, hrest] at h
      refine ⟨ks, m', rfl, rfl, ?_⟩
      by_cases hemp : ks.isEmpty = true
      · rw [if_pos hemp] at h
        exact Or.inl ⟨hemp, (Option.some.inj h).symm⟩
      · rw [if_neg hemp] at h
        exact Or.inr ⟨by simpa using hemp, (Option.some.inj h).symm⟩

/-- Every type name of the extraction result names an input declaration. -/
theorem collect_mem_keys (cm : Nat → List String) :
    ∀ (decls : List (String × DeclEntry)) (m : List (String × ConfigType)),
      collectConfigTypes cm decls = some m →
      ∀ name, name ∈ m.map Prod.fst → name ∈ decls.map Prod.fst
  | [], m, h, name, hm => by
    simp only [collectConfigTypes, Option.some.injEq] at h
    subst h
    simp at hm
  | (n, d) :: rest, m, h, name, hm => by
    obtain ⟨ks, m', _, hrest, hcase⟩ := collect_cons_inv cm n d rest m h
    rcases hcase with ⟨_, rfl⟩ | ⟨_, rfl⟩
    · exact List.mem_cons_of_mem _ (collect_mem_keys cm rest _ hrest name hm)
    · rw [List.map_cons] at hm
      rcases List.mem_cons.mp hm with rfl | hm'
      · exact List.mem_cons_self _ _
      · exact List.mem_cons_of_mem _ (collect_mem_keys cm rest _ hrest name hm')

/-- The Tag Extractor keeps type names distinct. -/
theorem collect_nodup_keys (cm : Nat → List String) :
    ∀ (decls : List (String × DeclEntry)) (m : List (String × ConfigType)),
      (decls.map Prod.fst).Nodup → collectConfigTypes cm decls = some m →
      (m.map Prod.fst).Nodup
  | [], m, _, h => by
    simp only [collectConfigTypes, Option.some.injEq] at h
    subst h
    simp
  | (n, d) :: rest, m, hnd, h => by
    obtain ⟨ks, m', _, hrest, hcase⟩ := collect_cons_inv cm n d rest m h
    rw [List.map_cons, List.nodup_cons] at hnd
    rcases hcase with ⟨_, rfl⟩ | ⟨_, rfl⟩
    · exact collect_nodup_keys cm rest _ hnd.2 hrest
    · rw [List.map_cons, List.nodup_cons]
      refine ⟨fun hmem => hnd.1 (collect_mem_keys cm rest _ hrest n hmem), ?_⟩
      exact collect_nodup_keys cm rest _ hnd.2 hrest

theorem collectFromPackagesAux_append (acc : List (String × ConfigType))
    (ps qs : List Package) :
    collectFromPackagesAux acc (ps ++ qs) =
      match collectFromPackagesAux acc ps with
      | none => none
      | some m => collectFromPackagesAux m qs := by
  induction ps generalizing acc with
  | nil => rfl
  | cons p rest ih =>
    have lhs : collectFromPackagesAux acc ((p :: rest) ++ qs) =
        match collectConfigTypes p.cm (collectDecls p.files) with
        | none => none
        | some cfg => collectFromPackagesAux (mapsCopy acc cfg) (rest ++ qs) := rfl
    have rhs : collectFromPackagesAux acc (p :: rest) =
        match collectConfigTypes p.cm (collectDecls p.files) with
        | none => none
        | some cfg => collectFromPackagesAux (mapsCopy acc cfg) rest := rfl
    rw [lhs, rhs]
    cases collectConfigTypes p.cm (collectDecls p.files) with
    | none => rfl
    | some cfg => exact ih (mapsCopy acc cfg)

/-! ### Claim theorems -/

/-- **C2.** For every field carrying an envconfig tag (whose declared type is
a simple identifier, so that a ConfigKey is built), the extracted
`Required` is `true` iff the tag's `required` attribute is present with
literal value exactly `"true"`; if the attribute is absent or has any other
value (including `"false"` and `"1"`), `Required` is `false`. -/
theorem required_iff_attr_true (f : Field) (attrs : List (String × String))
    (hf : f.tag = some attrs) (k : String)
    (hk : lookupTag attrs "envconfig" = some k) (t : String)
    (ht : f.fieldType = .ident t) :
    ∃ ck : ConfigKey, fieldKey f = some (some ck) ∧
      (ck.Required = true ↔ lookupTag attrs "required" = some "true") := by
  refine ⟨⟨k, t, decide (lookupTag attrs "required" = some "true"),
    (lookupTag attrs "default").getD "", stripNewlines f.doc⟩, ?_, ?_⟩
  · simp [fieldKey, hf, hk, ht]
  · simp

/-- Witness for C2 at a concrete field whose tag carries `required:"false"`. -/
theorem required_iff_attr_true_witness :
    ∃ ck : ConfigKey,
      fieldKey ⟨["APIKey"], .ident "string",
        some [("envconfig", "API_KEY"), ("required", "false")], ""⟩ = some (some ck) ∧
      (ck.Required = true ↔
        lookupTag [("envconfig", "API_KEY"), ("required", "false")] "required"
          = some "true") :=
  required_iff_attr_true _ _ rfl "API_KEY" (by decide) "string" rfl

/-- **C3.** For every field carrying an envconfig tag (whose declared type is
a simple identifier), the extracted `Default` is the empty string when the
tag's `default` attribute is absent, and the attribute's literal value,
unmodified, when present. -/
theorem default_from_attr (f : Field) (attrs : List (String × String))
    (hf : f.tag = some attrs) (k : String)
    (hk : lookupTag attrs "envconfig" = some k) (t : String)
    (ht : f.fieldType = .ident t) :
    ∃ ck : ConfigKey, fieldKey f = some (some ck) ∧
      (lookupTag attrs "default" = none → ck.Default = "") ∧
      ∀ v, lookupTag attrs "default" = some v → ck.Default = v := by
  refine ⟨⟨k, t, decide (lookupTag attrs "required" = some "true"),
    (lookupTag attrs "default").getD "", stripNewlines f.doc⟩, ?_, ?_, ?_⟩
  · simp [fieldKey, hf, hk, ht]
  · intro h; simp [h]
  · intro v h; simp [h]

/-- Witness for C3 at a concrete field whose tag carries a `default`. -/
theorem default_from_attr_witness :
    ∃ ck : ConfigKey,
      fieldKey ⟨["DatabaseURL"], .ident "string",
        some [("envconfig", "DATABASE_URL"), ("default", "localhost:5432")],
        ""⟩ = some (some ck) ∧
      (lookupTag [("envconfig", "DATABASE_URL"), ("default", "localhost:5432")]
          "default" = none → ck.Default = "") ∧
      ∀ v, lookupTag [("envconfig", "DATABASE_URL"), ("default", "localhost:5432")]
          "default" = some v → ck.Default = v :=
  default_from_attr _ _ rfl "DATABASE_URL" (by decide) "string" rfl

/-- **C5.** An `envconfig`-tagged field whose declared type is not a simple
identifier makes the whole extraction fail (the modelled type-assertion
panic) rather than being skipped; and when every field's declared type is a
simple identifier, the failure branch is unreachable (extraction always
succeeds). -/
theorem nonIdent_field_panics :
    collectConfigTypes (fun _ => [])
        [("Bad", ⟨0, [⟨["P"], .nonIdent, some [("envconfig", "P")], ""⟩]⟩)] = none ∧
    ∀ fields : List Field, (∀ f ∈ fields, f.fieldType ≠ .nonIdent) →
      (extractKeys fields).isSome :=
  ⟨by decide, extractKeys_isSome⟩

/-- Witness for C5's universal part at a concrete identifier-typed field. -/
theorem nonIdent_field_panics_witness :
    (extractKeys [⟨["A"], .ident "string", some [("envconfig", "A")], ""⟩]).isSome :=
  nonIdent_field_panics.2 _ (by decide)

/-- **C9.** A struct field entry that declares several identifiers under one
envconfig tag yields exactly one ConfigKey, named from the tag's envconfig
attribute value — not one ConfigKey per declared identifier. -/
theorem multi_name_entry_one_key (ns : List String) (hns : 2 ≤ ns.length)
    (attrs : List (String × String)) (k : String)
    (hk : lookupTag attrs "envconfig" = some k) (t d : String)
    (rest : List Field) :
    extractKeys (⟨ns, .ident t, some attrs, d⟩ :: rest) =
      (extractKeys rest).map (fun ks =>
        (⟨k, t, decide (lookupTag attrs "required" = some "true"),
          (lookupTag attrs "default").getD "", stripNewlines d⟩ : ConfigKey) :: ks) := by
  simp [extractKeys, fieldKey, hk]

/-- Witness for C9 at a two-identifier field entry. -/
theorem multi_name_entry_one_key_witness :
    extractKeys [⟨["A", "B"], .ident "string", some [("envconfig", "AB")], ""⟩] =
      (extractKeys []).map (fun ks =>
        (⟨"AB", "string",
          decide (lookupTag [("envconfig", "AB")] "required" = some "true"),
          (lookupTag [("envconfig", "AB")] "default").getD "",
          stripNewlines ""⟩ : ConfigKey) :: ks) :=
  multi_name_entry_one_key ["A", "B"] (by decide) _ "AB" (by decide) "string" "" []

/-- **C10.** In the Declaration Collector, a later top-level type declaration
with the same name whose underlying type is not a structure literal leaves
the collected mapping at that name unchanged; replacement happens exactly
when the later declaration's underlying type is itself a structure
literal. -/
theorem later_nonstruct_keeps_earlier (files : List FileNode) (name : String)
    (pos2 : Nat) (fields : List Field) :
    lookup (collectDecls
        (files ++ [⟨[.genDecl pos2 [.typeSpec name .nonStruct]]⟩])) name
      = lookup (collectDecls files) name ∧
    lookup (collectDecls
        (files ++ [⟨[.genDecl pos2 [.typeSpec name (.structLit fields)]]⟩])) name
      = some ⟨pos2, fields⟩ := by
  constructor
  · rw [collectDecls, collectDeclsAux_append]
    rfl
  · rw [collectDecls, collectDeclsAux_append]
    show lookup (upsert (collectDeclsAux [] files) name ⟨pos2, fields⟩) name = _
    exact lookup_upsert_self _ _ _

/-- **C1.** For every declaration map with distinct type names whose
extraction succeeds, the result contains an entry for a type name iff at
least one of that type's fields carries the envconfig tag; and for each such
type the key list is exactly the tagged fields' keys in field declaration
order (untagged fields excluded), so its length equals the number of
envconfig-tagged fields. -/
theorem collect_entry_iff (cm : Nat → List String)
    (decls : List (String × DeclEntry)) (hnd : (decls.map Prod.fst).Nodup)
    (m : List (String × ConfigType)) (h : collectConfigTypes cm decls = some m)
    (name : String) :
    ((lookup m name).isSome ↔
      ∃ d, lookup decls name = some d ∧ ∃ f ∈ d.fields, hasEnvTag f) ∧
    ∀ ct, lookup m name = some ct → ∀ d, lookup decls name = some d →
      ct.Keys = d.fields.filterMap keyOfField ∧
      ct.Keys.length = d.fields.countP hasEnvTag := by
  induction decls generalizing m with
  | nil =>
    simp only [collectConfigTypes, Option.some.injEq] at h
    subst h
    constructor
    · simp [lookup]
    · intro ct hct
      simp [lookup] at hct
  | cons hd rest ih =>
    obtain ⟨n, d⟩ := hd
    obtain ⟨ks, m', hks, hrest, hcase⟩ := collect_cons_inv cm n d rest m h
    rw [List.map_cons, List.nodup_cons] at hnd
    by_cases hname : name = n
    · subst hname
      have hld : lookup ((name, d) :: rest) name = some d := by simp [lookup]
      rcases hcase with ⟨hemp, heq⟩ | ⟨hemp, heq⟩
      · have hm'n : lookup m' name = none :=
          lookup_eq_none_of_not_mem m' name
            (fun hmem => hnd.1 (collect_mem_keys cm rest _ hrest name hmem))
        have hcount : d.fields.countP hasEnvTag = 0 := by
          have hlen := extractKeys_length d.fields ks hks
          rw [List.isEmpty_iff] at hemp
          subst hemp
          simpa using hlen.symm
        rw [heq]
        constructor
        · rw [hm'n]
          simp only [Option.isSome_none, Bool.false_eq_true, false_iff]
          rintro ⟨d', hd', f, hf, henv⟩
          rw [hld] at hd'
          obtain rfl := Option.some.inj hd'
          exact (List.countP_eq_zero.mp hcount f hf) henv
        · intro ct hct
          rw [hm'n] at hct
          cases hct
      · have hlm : lookup ((name, (⟨ks, cm d.tokPos⟩ : ConfigType)) :: m') name
            = some ⟨ks, cm d.tokPos⟩ := by simp [lookup]
        rw [heq]
        constructor
        · rw [hlm]
          simp only [Option.isSome_some, true_iff]
          refine ⟨d, hld, ?_⟩
          have hlen := extractKeys_length d.fields ks hks
          have hpos : 0 < d.fields.countP hasEnvTag := by
            rw [← hlen]
            cases ks with
            | nil => simp at hemp
            | cons a l => simp
          exact List.countP_pos_iff.mp hpos
        · intro ct hct
          rw [hlm] at hct
          obtain rfl := Option.some.inj hct
          intro d' hd'
          rw [hld] at hd'
          obtain rfl := Option.some.inj hd'
          exact ⟨extractKeys_eq_filterMap d.fields ks hks,
                 extractKeys_length d.fields ks hks⟩
    · have hne : ¬ n = name := fun hh => hname hh.symm
      have hld : lookup ((n, d) :: rest) name = lookup rest name := by
        simp [lookup, hne]
      rcases hcase with ⟨hemp, heq⟩ | ⟨hemp, heq⟩
      · rw [heq, hld]
        exact ih hnd.2 m' hrest
      · have hlm : lookup ((n, (⟨ks, cm d.tokPos⟩ : ConfigType)) :: m') name
            = lookup m' name := by simp [lookup, hne]
        rw [heq, hld, hlm]
        exact ih hnd.2 m' hrest

/-- Witness for C1 at a one-declaration input with one tagged and one
untagged field. -/
theorem collect_entry_iff_witness :
    ((lookup [("MyConfig",
        (⟨[⟨"A_KEY", "string", false, "", ""⟩], []⟩ : ConfigType))] "MyConfig").isSome ↔
      ∃ d, lookup [("MyConfig",
          (⟨7, [⟨["A"], .ident "string", some [("envconfig", "A_KEY")], ""⟩,
                ⟨["B"], .ident "int", none, ""⟩]⟩ : DeclEntry))] "MyConfig"
            = some d ∧
        ∃ f ∈ d.fields, hasEnvTag f) ∧
    ∀ ct, lookup [("MyConfig",
        (⟨[⟨"A_KEY", "string", false, "", ""⟩], []⟩ : ConfigType))] "MyConfig"
          = some ct →
      ∀ d, lookup [("MyConfig",
          (⟨7, [⟨["A"], .ident "string", some [("envconfig", "A_KEY")], ""⟩,
                ⟨["B"], .ident "int", none, ""⟩]⟩ : DeclEntry))] "MyConfig"
            = some d →
        ct.Keys = d.fields.filterMap keyOfField ∧
        ct.Keys.length = d.fields.countP hasEnvTag :=
  collect_entry_iff (fun _ => [])
    [("MyConfig", ⟨7, [⟨["A"], .ident "string", some [("envconfig", "A_KEY")], ""⟩,
                       ⟨["B"], .ident "int", none, ""⟩]⟩)]
    (by decide) _ (by decide) "MyConfig"

/-- **C4.** Aggregation merges per-package results in input order: at every
type name, the final mapping holds the last package's whole ConfigType entry
when that package has one, else the earlier packages' entry. Disjoint names
yield the union; a collision yields the later package's entry exactly, never
a field-by-field merge. -/
theorem packages_merge_in_order (ps : List Package) (p : Package)
    (mAll mPs cp : List (String × ConfigType))
    (hAll : collectConfigTypesFromPackages (ps ++ [p]) = some mAll)
    (hPs : collectConfigTypesFromPackages ps = some mPs)
    (hp : collectConfigTypes p.cm (collectDecls p.files) = some cp)
    (k : String) :
    lookup mAll k = (lookup cp k).orElse (fun _ => lookup mPs k) := by
  unfold collectConfigTypesFromPackages at hAll hPs
  rw [collectFromPackagesAux_append, hPs] at hAll
  simp only [collectFromPackagesAux, hp, Option.some.injEq] at hAll
  subst hAll
  exact lookup_mapsCopy mPs cp
    (collect_nodup_keys p.cm _ cp (collectDecls_nodup_keys p.files) hp) k

/-- Witness for C4: two one-file packages declaring the same type name
`C`; the merged map holds the second package's entry. -/
theorem packages_merge_in_order_witness :
    lookup [("C", (⟨[⟨"F2", "string", false, "", ""⟩], []⟩ : ConfigType))] "C" =
      (lookup [("C", (⟨[⟨"F2", "string", false, "", ""⟩], []⟩ : ConfigType))] "C").orElse
        (fun _ =>
          lookup [("C", (⟨[⟨"F1", "string", false, "", ""⟩], []⟩ : ConfigType))] "C") :=
  packages_merge_in_order
    [⟨[⟨[.genDecl 0 [.typeSpec "C" (.structLit
        [⟨["F"], .ident "string", some [("envconfig", "F1")], ""⟩])]]⟩], fun _ => []⟩]
    ⟨[⟨[.genDecl 0 [.typeSpec "C" (.structLit
        [⟨["F"], .ident "string", some [("envconfig", "F2")], ""⟩])]]⟩], fun _ => []⟩
    [("C", ⟨[⟨"F2", "string", false, "", ""⟩], []⟩)]
    [("C", ⟨[⟨"F1", "string", false, "", ""⟩], []⟩)]
    [("C", ⟨[⟨"F2", "string", false, "", ""⟩], []⟩)]
    (by decide) (by decide) (by decide) "C"

/-- **C6 counterexample.** A tag whose envconfig attribute has the empty
string as value (`envconfig:""`) produces a ConfigKey whose Name is empty:
the non-emptiness part of the claim fails on this input. -/
theorem name_nonempty_cex :
    ¬ ∀ ks, extractKeys [⟨["A"], .ident "string", some [("envconfig", "")], ""⟩]
        = some ks → ∀ k ∈ ks, k.Name ≠ "" := by
  intro hclaim
  exact hclaim [⟨"", "string", false, "", ""⟩] (by decide)
    ⟨"", "string", false, "", ""⟩ (by decide) rfl

/-- **C6 amended.** Every ConfigKey in an extraction result takes its Name
from the envconfig attribute value of one of the declaration's fields — not
from the field's identifier — but that value, hence the Name, may be the
empty string when the tag declares an empty key. -/
theorem name_from_tag_attr : ∀ (fields : List Field) (ks : List ConfigKey),
    extractKeys fields = some ks →
    ∀ k ∈ ks, ∃ f ∈ fields, ∃ attrs, f.tag = some attrs ∧
      lookupTag attrs "envconfig" = some k.Name
  | [], ks, h, k, hk => by
    simp only [extractKeys, Option.some.injEq] at h
    subst h
    exact absurd hk (List.not_mem_nil k)
  | f :: rest, ks, h, k, hk => by
    cases hf : fieldKey f with
    | none => simp [extractKeys, hf] at h
    | some o =>
      cases o with
      | none =>
        simp only [extractKeys, hf] at h
        obtain ⟨g, hg, attrs, ha, hl⟩ := name_from_tag_attr rest ks h k hk
        exact ⟨g, List.mem_cons_of_mem f hg, attrs, ha, hl⟩
      | some k0 =>
        simp only [extractKeys, hf] at h
        cases hrest : extractKeys rest with
        | none => rw [hrest] at h; simp at h
        | some ks' =>
          rw [hrest, Option.map_some'] at h
          obtain rfl := Option.some.inj h
          rcases List.mem_cons.mp hk with rfl | hk'
          · cases hft : f.tag with
            | none => simp [fieldKey, hft] at hf
            | some attrs =>
              cases hkk : lookupTag attrs "envconfig" with
              | none => simp [fieldKey, hft, hkk] at hf
              | some key =>
                cases hty : f.fieldType with
                | nonIdent => simp [fieldKey, hft, hkk, hty] at hf
                | ident t =>
                  refine ⟨f, List.mem_cons_self f rest, attrs, hft, ?_⟩
                  simp only [fieldKey, hft, hkk, hty, Option.some.injEq] at hf
                  rw [← hf]
                  exact hkk
          · obtain ⟨g, hg, attrs, ha, hl⟩ :=
              name_from_tag_attr rest ks' hrest k hk'
            exact ⟨g, List.mem_cons_of_mem f hg, attrs, ha, hl⟩

theorem entryLE_trans : ∀ a b c, entryLE a b → entryLE b c → entryLE a c := by
  intro a b c hab hbc
  simp only [entryLE, decide_eq_true_eq] at *
  exact le_trans hab hbc

theorem entryLE_total : ∀ a b, entryLE a b || entryLE b a := by
  intro a b
  simp only [entryLE]
  rcases le_total a.1 b.1 with h | h <;> simp [h]

theorem sortedEntries_perm (m : List (String × ConfigType)) :
    (sortedEntries m).Perm m :=
  List.mergeSort_perm m entryLE

theorem sortedEntries_pairwise_le (m : List (String × ConfigType)) :
    (sortedEntries m).Pairwise (fun a b => a.1 ≤ b.1) := by
  have h := List.sorted_mergeSort entryLE_trans entryLE_total m
  exact h.imp (fun hab => by simpa [entryLE] using hab)

theorem sortedEntries_pairwise_lt (m : List (String × ConfigType))
    (hnd : (m.map Prod.fst).Nodup) :
    ((sortedEntries m).map Prod.fst).Pairwise (· < ·) := by
  have hA : ((sortedEntries m).map Prod.fst).Pairwise (· ≤ ·) :=
    List.pairwise_map.mpr (sortedEntries_pairwise_le m)
  have hB : ((sortedEntries m).map Prod.fst).Pairwise (· ≠ ·) :=
    ((sortedEntries_perm m).map Prod.fst).nodup_iff.mpr hnd
  exact (hA.and hB).imp (fun h => lt_of_le_of_ne h.1 h.2)

/-- Two key-sorted association lists that are permutations of each other and
have distinct keys are equal. -/
theorem sorted_nodupkeys_eq :
    ∀ (l1 l2 : List (String × ConfigType)), l1.Perm l2 →
      l1.Pairwise (fun a b => a.1 ≤ b.1) → l2.Pairwise (fun a b => a.1 ≤ b.1) →
      (l1.map Prod.fst).Nodup → l1 = l2
  | [], l2, hp, _, _, _ => (List.Perm.eq_nil hp.symm).symm
  | a :: t1, l2, hp, hs1, hs2, hnd => by
    cases l2 with
    | nil => exact List.Perm.eq_nil hp
    | cons b t2 =>
      have hab : a = b := by
        by_contra hne
        have ha2 : a ∈ b :: t2 := hp.mem_iff.mp (List.mem_cons_self a t1)
        have hb1 : b ∈ a :: t1 := hp.mem_iff.mpr (List.mem_cons_self b t2)
        have ha_t2 : a ∈ t2 := by
          rcases List.mem_cons.mp ha2 with h | h
          · exact absurd h hne
          · exact h
        have hb_t1 : b ∈ t1 := by
          rcases List.mem_cons.mp hb1 with h | h
          · exact absurd h.symm hne
          · exact h
        have h1 : a.1 ≤ b.1 := (List.pairwise_cons.mp hs1).1 b hb_t1
        have h2 : b.1 ≤ a.1 := (List.pairwise_cons.mp hs2).1 a ha_t2
        rw [List.map_cons, List.nodup_cons] at hnd
        apply hnd.1
        rw [le_antisymm h1 h2]
        exact List.mem_map.mpr ⟨b, hb_t1, rfl⟩
      subst hab
      rw [List.map_cons, List.nodup_cons] at hnd
      rw [sorted_nodupkeys_eq t1 t2 hp.cons_inv
        (List.pairwise_cons.mp hs1).2 (List.pairwise_cons.mp hs2).2 hnd.2]

/-- Witness for the amended C6 at a concrete one-field input and its
extracted key. -/
theorem name_from_tag_attr_witness :
    ∃ f ∈ [(⟨["A"], .ident "string", some [("envconfig", "A_KEY")], ""⟩ : Field)],
      ∃ attrs, f.tag = some attrs ∧
        lookupTag attrs "envconfig" =
          some (⟨"A_KEY", "string", false, "", ""⟩ : ConfigKey).Name :=
  name_from_tag_attr
    [⟨["A"], .ident "string", some [("envconfig", "A_KEY")], ""⟩]
    [⟨"A_KEY", "string", false, "", ""⟩] (by decide)
    ⟨"A_KEY", "string", false, "", ""⟩ (by decide)

/-- **C7.** For every aggregated model (with distinct type names, as the
aggregator produces), the markdown output is the concatenation of exactly
one section per type, the sections ordered by strictly ascending
(lexicographic, byte-wise) type name, and each section begins with a level-2
heading containing its type name. -/
theorem writeMarkdown_sorted_sections (m : List (String × ConfigType))
    (hnd : (m.map Prod.fst).Nodup) :
    writeMarkdown m = String.join ((sortedEntries m).map renderSection) ∧
    ((sortedEntries m).map Prod.fst).Pairwise (· < ·) ∧
    ((sortedEntries m).map Prod.fst).Perm (m.map Prod.fst) ∧
    ∀ e ∈ sortedEntries m, ∃ tail, renderSection e = "## " ++ e.1 ++ tail := by
  refine ⟨rfl, sortedEntries_pairwise_lt m hnd,
    (sortedEntries_perm m).map Prod.fst, ?_⟩
  intro e _
  refine ⟨"\n\n" ++ renderComments e.2.Comments
    ++ renderTable (e.2.Keys.map rowCells) ++ "\n", ?_⟩
  simp [renderSection, String.append_assoc]

/-- Witness for C7 at a concrete two-type model given in unsorted order. -/
theorem writeMarkdown_sorted_sections_witness :
    writeMarkdown [("B", (⟨[], []⟩ : ConfigType)), ("A", ⟨[], []⟩)] =
      String.join ((sortedEntries
        [("B", (⟨[], []⟩ : ConfigType)), ("A", ⟨[], []⟩)]).map renderSection) ∧
    ((sortedEntries
        [("B", (⟨[], []⟩ : ConfigType)), ("A", ⟨[], []⟩)]).map Prod.fst).Pairwise
      (· < ·) ∧
    ((sortedEntries
        [("B", (⟨[], []⟩ : ConfigType)), ("A", ⟨[], []⟩)]).map Prod.fst).Perm
      ([("B", (⟨[], []⟩ : ConfigType)), ("A", ⟨[], []⟩)].map Prod.fst) ∧
    ∀ e ∈ sortedEntries [("B", (⟨[], []⟩ : ConfigType)), ("A", ⟨[], []⟩)],
      ∃ tail, renderSection e = "## " ++ e.1 ++ tail :=
  writeMarkdown_sorted_sections
    [("B", ⟨[], []⟩), ("A", ⟨[], []⟩)] (by decide)

/-- **C8.** `writeMarkdown` is deterministic: two association lists denoting
the same aggregated model (a Go map carries no entry order, so the same
model means any two permutations of the same distinct-keyed entry list)
render to byte-identical markdown. -/
theorem writeMarkdown_deterministic (m1 m2 : List (String × ConfigType))
    (hperm : m1.Perm m2) (hnd : (m1.map Prod.fst).Nodup) :
    writeMarkdown m1 = writeMarkdown m2 := by
  have hsort : sortedEntries m1 = sortedEntries m2 := by
    apply sorted_nodupkeys_eq
    · exact (sortedEntries_perm m1).trans
        (hperm.trans (sortedEntries_perm m2).symm)
    · exact sortedEntries_pairwise_le m1
    · exact sortedEntries_pairwise_le m2
    · exact ((sortedEntries_perm m1).map Prod.fst).nodup_iff.mpr hnd
  unfold writeMarkdown
  rw [hsort]

/-- Witness for C8: the same two-type model presented in both entry
orders. -/
theorem writeMarkdown_deterministic_witness :
    writeMarkdown [("B", (⟨[⟨"K", "string", true, "d", "c"⟩], ["t\n"]⟩ : ConfigType)),
                   ("A", ⟨[], []⟩)] =
      writeMarkdown [("A", (⟨[], []⟩ : ConfigType)),
                     ("B", ⟨[⟨"K", "string", true, "d", "c"⟩], ["t\n"]⟩)] :=
  writeMarkdown_deterministic
    [("B", ⟨[⟨"K", "string", true, "d", "c"⟩], ["t\n"]⟩), ("A", ⟨[], []⟩)]
    [("A", ⟨[], []⟩), ("B", ⟨[⟨"K", "string", true, "d", "c"⟩], ["t\n"]⟩)]
    (by decide) (by decide)

end EnvconfigDocs
